import Mathlib

/-!
# Log-Aggregator: bounded queue, worker pool and in-memory store

A shallow embedding of `pkg/log/log.go`, `internal/storage/memory.go` and
`internal/aggregator/aggregator.go`.

* Records and the in-memory store are plain data; the store's methods are
  written in state-passing style (result, store afterwards).  A Go slice is
  represented by the sequence of its elements; each method body runs under the
  store's mutex and is therefore one atomic function.
* The Go runtime primitives the aggregator relies on (a buffered channel and a
  `sync.WaitGroup`) are modelled by their language-level semantics: an
  operation either completes, blocks, or panics.
* The goroutines are modelled by an interleaving semantics: a `World` holds the
  aggregator, the program counter of every worker goroutine and the remaining
  instructions of the client goroutine; `World.step` performs one atomic step
  of the goroutine picked by the scheduler.
-/

namespace LogAggregator

/-! ## pkg/log/log.go -/

/-- The record `log.LogEntry`.  `time.Time` is represented by an integer
instant; the three other fields are Go strings. -/
structure LogEntry where
  Timestamp : Int
  Source : String
  Message : String
  Level : String
deriving DecidableEq, Repr

/-! ## internal/storage/memory.go -/

/-- The struct `storage.MemoryStorage`: the slice `logs` (the mutex `mu` is
represented by the atomicity of the methods). -/
structure MemoryStorage where
  logs : List LogEntry
deriving DecidableEq, Repr

/-- `NewMemoryStorage`: `logs: make([]log.LogEntry, 0)`. -/
def NewMemoryStorage : MemoryStorage :=
  { logs := [] }

/-- `(*MemoryStorage).StoreLog`: `m.logs = append(m.logs, entry); return nil`.
The first component is the returned `error` (`none` is `nil`). -/
def MemoryStorage.StoreLog (m : MemoryStorage) (entry : LogEntry) :
    Option String × MemoryStorage :=
  (none, { m with logs := m.logs ++ [entry] })

/-- `(*MemoryStorage).GetLogs`: `return m.logs`.  The second component is the
store after the call. -/
def MemoryStorage.GetLogs (m : MemoryStorage) : List LogEntry × MemoryStorage :=
  (m.logs, m)

/-- The store after a sequence of `StoreLog` calls, in call order. -/
def MemoryStorage.storeAll (m : MemoryStorage) (rs : List LogEntry) : MemoryStorage :=
  rs.foldl (fun acc r => (acc.StoreLog r).2) m

/-! ## Go runtime primitives -/

/-- Result of one attempt to perform an operation that may block or panic. -/
inductive Outcome (α : Type) where
  | ok (a : α)
  | blocked
  | panic (msg : String)
deriving DecidableEq, Repr

/-- A buffered channel of records: `make(chan log.LogEntry, cap)`. -/
structure Chan where
  buf : List LogEntry
  cap : Nat
  closed : Bool
deriving DecidableEq, Repr

/-- `make(chan log.LogEntry, n)`. -/
def Chan.make (n : Nat) : Chan :=
  { buf := [], cap := n, closed := false }

/-- `c <- entry`: panics on a closed channel, completes when the buffer has
room, blocks otherwise. -/
def Chan.send (c : Chan) (entry : LogEntry) : Outcome Chan :=
  if c.closed then .panic "send on closed channel"
  else if c.buf.length < c.cap then .ok { c with buf := c.buf ++ [entry] }
  else .blocked

/-- One iteration of `for entry := range c`: the oldest buffered record if
there is one; `none` (the loop ends) when the channel is closed and drained;
blocks when it is open and empty. -/
def Chan.recv (c : Chan) : Outcome (Option LogEntry × Chan) :=
  match c.buf with
  | entry :: rest => .ok (some entry, { c with buf := rest })
  | [] => if c.closed then .ok (none, c) else .blocked

/-- `close(c)`: panics when the channel is already closed. -/
def Chan.close (c : Chan) : Outcome Chan :=
  if c.closed then .panic "close of closed channel"
  else .ok { c with closed := true }

/-- `wg.Add(delta)` on the counter of a `sync.WaitGroup`. -/
def WaitGroup.Add (counter : Int) (delta : Int) : Outcome Int :=
  if counter + delta < 0 then .panic "sync: negative WaitGroup counter"
  else .ok (counter + delta)

/-- `wg.Done()` is `wg.Add(-1)`. -/
def WaitGroup.Done (counter : Int) : Outcome Int :=
  WaitGroup.Add counter (-1)

/-- `wg.Wait()`: returns once the counter is zero. -/
def WaitGroup.Wait (counter : Int) : Outcome Unit :=
  if counter = 0 then .ok () else .blocked

/-! ## internal/aggregator/aggregator.go -/

/-- The interface `LogStorage` over a sink with state `σ`: `StoreLog` returns
the `error` (`none` is `nil`) and the sink afterwards. -/
structure LogStorage (σ : Type) where
  StoreLog : σ → LogEntry → Option String × σ

/-- `*storage.MemoryStorage` implements `LogStorage`. -/
def memorySink : LogStorage MemoryStorage :=
  { StoreLog := MemoryStorage.StoreLog }

/-- The struct `Aggregator`; `wg` is the counter of the wait group. -/
structure Aggregator (σ : Type) where
  logChan : Chan
  storage : σ
  wg : Int
deriving DecidableEq, Repr

/-- `NewAggregator`: `logChan: make(chan log.LogEntry, 100), storage: storage`. -/
def NewAggregator {σ : Type} (storage : σ) : Aggregator σ :=
  { logChan := Chan.make 100, storage := storage, wg := 0 }

/-- Program counter of one goroutine running `(*Aggregator).worker`:
at the head of the `range` loop, holding a received entry that it is about to
pass to `StoreLog`, or returned (after the deferred `wg.Done()`). -/
inductive Worker where
  | ranging
  | storing (entry : LogEntry)
  | exited
deriving DecidableEq, Repr

/-- One atomic step of `(*Aggregator).worker`.  The third component is the
record handed to `StoreLog` in this step, if any.
* at `for entry := range a.logChan`: receive an entry, or leave the loop and run
  the deferred `a.wg.Done()`;
* at `a.storage.StoreLog(entry)`: call the sink; the error is ignored
  (`if err != nil { }`) and the loop continues. -/
def Aggregator.worker {σ : Type} (sink : LogStorage σ) (a : Aggregator σ) :
    Worker → Outcome (Aggregator σ × Worker × Option LogEntry)
  | .ranging =>
    match Chan.recv a.logChan with
    | .ok (some entry, c) => .ok ({ a with logChan := c }, .storing entry, none)
    | .ok (none, _) =>
      match WaitGroup.Done a.wg with
      | .ok n => .ok ({ a with wg := n }, .exited, none)
      | .blocked => .blocked
      | .panic msg => .panic msg
    | .blocked => .blocked
    | .panic msg => .panic msg
  | .storing entry =>
    match sink.StoreLog a.storage entry with
    | (_, st) => .ok ({ a with storage := st }, .ranging, some entry)
  | .exited => .blocked

/-- The atomic instructions the client-facing methods are made of. -/
inductive Instr where
  | spawn
  | send (entry : LogEntry)
  | close
  | wait
deriving DecidableEq, Repr

/-- `(*Aggregator).Start`: `for i := 0; i < workers; i++ { a.wg.Add(1); go a.worker() }`. -/
def Aggregator.Start (workers : Int) : List Instr :=
  List.replicate workers.toNat Instr.spawn

/-- `(*Aggregator).Stop`: `close(a.logChan); a.wg.Wait()`. -/
def Aggregator.Stop : List Instr :=
  [Instr.close, Instr.wait]

/-- `(*Aggregator).AddLog`: `a.logChan <- entry`. -/
def Aggregator.AddLog (entry : LogEntry) : List Instr :=
  [Instr.send entry]

/-- The whole system: the aggregator, the worker goroutines spawned so far, the
instructions the client goroutine has still to run, and (as a history
variable) the arguments of the `StoreLog` calls made so far, in call order. -/
structure World (σ : Type) where
  agg : Aggregator σ
  workers : List Worker
  main : List Instr
  calls : List LogEntry
deriving DecidableEq, Repr

/-- The goroutine the scheduler runs next. -/
inductive Tid where
  | main
  | worker (i : Nat)
deriving DecidableEq, Repr

/-- One instruction of the client goroutine. -/
def Instr.exec {σ : Type} (a : Aggregator σ) (ws : List Worker) :
    Instr → Outcome (Aggregator σ × List Worker)
  | .spawn =>
    match WaitGroup.Add a.wg 1 with
    | .ok n => .ok ({ a with wg := n }, ws ++ [Worker.ranging])
    | .blocked => .blocked
    | .panic msg => .panic msg
  | .send entry =>
    match Chan.send a.logChan entry with
    | .ok c => .ok ({ a with logChan := c }, ws)
    | .blocked => .blocked
    | .panic msg => .panic msg
  | .close =>
    match Chan.close a.logChan with
    | .ok c => .ok ({ a with logChan := c }, ws)
    | .blocked => .blocked
    | .panic msg => .panic msg
  | .wait =>
    match WaitGroup.Wait a.wg with
    | .ok _ => .ok (a, ws)
    | .blocked => .blocked
    | .panic msg => .panic msg

/-- One step of the goroutine `t`. -/
def World.step {σ : Type} (sink : LogStorage σ) (s : World σ) : Tid → Outcome (World σ)
  | .main =>
    match s.main with
    | [] => .blocked
    | ins :: rest =>
      match ins.exec s.agg s.workers with
      | .ok (a, ws) => .ok { s with agg := a, workers := ws, main := rest }
      | .blocked => .blocked
      | .panic msg => .panic msg
  | .worker i =>
    match s.workers[i]? with
    | none => .blocked
    | some pc =>
      match Aggregator.worker sink s.agg pc with
      | .ok (a, pc', call) =>
        .ok { s with agg := a, workers := s.workers.set i pc',
                     calls := s.calls ++ call.toList }
      | .blocked => .blocked
      | .panic msg => .panic msg

/-- Run a schedule: the goroutines step in the order given. -/
def World.run {σ : Type} (sink : LogStorage σ) (s : World σ) : List Tid → Outcome (World σ)
  | [] => .ok s
  | t :: ts =>
    match s.step sink t with
    | .ok s' => World.run sink s' ts
    | .blocked => .blocked
    | .panic msg => .panic msg

/-- The world right after `NewAggregator(storage)`, with a client that will run
the instructions `prog`. -/
def World.init {σ : Type} (storage : σ) (prog : List Instr) : World σ :=
  { agg := NewAggregator storage, workers := [], main := prog, calls := [] }

/-- The client `a.Start(workers); a.AddLog(L[0]); ...; a.AddLog(L[n-1]); a.Stop()`. -/
def session (workers : Int) (L : List LogEntry) : List Instr :=
  Aggregator.Start workers ++ L.flatMap Aggregator.AddLog ++ Aggregator.Stop

/-! ## Bookkeeping functions and the step relation -/

/-- The entries currently held by workers, between receive and `StoreLog`. -/
def held : List Worker → List LogEntry
  | [] => []
  | Worker.storing entry :: ws => entry :: held ws
  | Worker.ranging :: ws => held ws
  | Worker.exited :: ws => held ws

/-- The number of worker goroutines that have not returned. -/
def live : List Worker → Nat
  | [] => 0
  | Worker.exited :: ws => live ws
  | Worker.ranging :: ws => live ws + 1
  | Worker.storing _ :: ws => live ws + 1

/-- The entries a list of instructions will send. -/
def sends : List Instr → List LogEntry
  | [] => []
  | Instr.send entry :: is => entry :: sends is
  | Instr.spawn :: is => sends is
  | Instr.close :: is => sends is
  | Instr.wait :: is => sends is

/-- The number of goroutines a list of instructions will spawn. -/
def spawns : List Instr → Nat
  | [] => 0
  | Instr.spawn :: is => spawns is + 1
  | Instr.send _ :: is => spawns is
  | Instr.close :: is => spawns is
  | Instr.wait :: is => spawns is

/-- The number of steps a worker in the given state still takes at least. -/
def Worker.fuel : Worker → Nat
  | Worker.ranging => 1
  | Worker.storing _ => 2
  | Worker.exited => 0

/-- The number of steps an instruction causes: itself, and for a spawned worker
its exit, for a sent record its receive and its store. -/
def Instr.fuel : Instr → Nat
  | Instr.spawn => 2
  | Instr.send _ => 3
  | Instr.close => 1
  | Instr.wait => 1

/-- The number of steps left in a world (each step consumes exactly one). -/
def World.fuel {σ : Type} (s : World σ) : Nat :=
  (s.main.map Instr.fuel).sum + 2 * s.agg.logChan.buf.length + (s.workers.map Worker.fuel).sum

/-- The relational reading of `World.step`: the seven kinds of step. -/
inductive Step {σ : Type} (sink : LogStorage σ) : World σ → Tid → World σ → Prop
  | spawn (c : Chan) (st : σ) (wg : Int) (ws : List Worker) (rest : List Instr)
      (calls : List LogEntry) (h : 0 ≤ wg + 1) :
      Step sink ⟨⟨c, st, wg⟩, ws, Instr.spawn :: rest, calls⟩ Tid.main
        ⟨⟨c, st, wg + 1⟩, ws ++ [Worker.ranging], rest, calls⟩
  | send (buf : List LogEntry) (cap : Nat) (st : σ) (wg : Int) (ws : List Worker)
      (entry : LogEntry) (rest : List Instr) (calls : List LogEntry) (h : buf.length < cap) :
      Step sink ⟨⟨⟨buf, cap, false⟩, st, wg⟩, ws, Instr.send entry :: rest, calls⟩ Tid.main
        ⟨⟨⟨buf ++ [entry], cap, false⟩, st, wg⟩, ws, rest, calls⟩
  | close (buf : List LogEntry) (cap : Nat) (st : σ) (wg : Int) (ws : List Worker)
      (rest : List Instr) (calls : List LogEntry) :
      Step sink ⟨⟨⟨buf, cap, false⟩, st, wg⟩, ws, Instr.close :: rest, calls⟩ Tid.main
        ⟨⟨⟨buf, cap, true⟩, st, wg⟩, ws, rest, calls⟩
  | wait (c : Chan) (st : σ) (ws : List Worker) (rest : List Instr) (calls : List LogEntry) :
      Step sink ⟨⟨c, st, 0⟩, ws, Instr.wait :: rest, calls⟩ Tid.main
        ⟨⟨c, st, 0⟩, ws, rest, calls⟩
  | recv (entry : LogEntry) (buf : List LogEntry) (cap : Nat) (closed : Bool) (st : σ)
      (wg : Int) (pre post : List Worker) (main : List Instr) (calls : List LogEntry) :
      Step sink ⟨⟨⟨entry :: buf, cap, closed⟩, st, wg⟩, pre ++ Worker.ranging :: post, main, calls⟩
        (Tid.worker pre.length)
        ⟨⟨⟨buf, cap, closed⟩, st, wg⟩, pre ++ Worker.storing entry :: post, main, calls⟩
  | store (entry : LogEntry) (c : Chan) (st : σ) (wg : Int) (pre post : List Worker)
      (main : List Instr) (calls : List LogEntry) :
      Step sink ⟨⟨c, st, wg⟩, pre ++ Worker.storing entry :: post, main, calls⟩
        (Tid.worker pre.length)
        ⟨⟨c, (sink.StoreLog st entry).2, wg⟩, pre ++ Worker.ranging :: post, main,
          calls ++ [entry]⟩
  | exit (cap : Nat) (st : σ) (wg : Int) (pre post : List Worker) (main : List Instr)
      (calls : List LogEntry) (h : 0 ≤ wg + -1) :
      Step sink ⟨⟨⟨[], cap, true⟩, st, wg⟩, pre ++ Worker.ranging :: post, main, calls⟩
        (Tid.worker pre.length)
        ⟨⟨⟨[], cap, true⟩, st, wg + -1⟩, pre ++ Worker.exited :: post, main, calls⟩

/-! ## Invariants and the phases of a session -/

/-- A list of records as a multiset. -/
def bag (l : List LogEntry) : Multiset LogEntry := (l : Multiset LogEntry)

/-- The state of the sink after the given `StoreLog` calls. -/
def sinkAfter {σ : Type} (sink : LogStorage σ) (st0 : σ) (calls : List LogEntry) : σ :=
  calls.foldl (fun st entry => (sink.StoreLog st entry).2) st0

/-- What holds in every world reached from `World.init st0 prog`. -/
structure Inv {σ : Type} (sink : LogStorage σ) (st0 : σ) (prog : List Instr)
    (s : World σ) : Prop where
  cap : s.agg.logChan.cap = 100
  bound : s.agg.logChan.buf.length ≤ 100
  wg : s.agg.wg = (live s.workers : Int)
  gone : Worker.exited ∈ s.workers → s.agg.logChan.closed = true ∧ s.agg.logChan.buf = []
  tokens : bag s.calls + bag (held s.workers) + bag s.agg.logChan.buf + bag (sends s.main)
    = bag (sends prog)
  spawned : s.workers.length + spawns s.main = spawns prog
  storage : s.agg.storage = sinkAfter sink st0 s.calls
  order : s.workers.length ≤ 1 →
    s.calls ++ held s.workers ++ s.agg.logChan.buf ++ sends s.main = sends prog
  idle : s.workers = [] → s.calls = []

/-- The client's instructions before `close`: `k` spawns left of `Start`, then
the `AddLog` calls for `P`, then `Stop`, then the late `AddLog` calls. -/
def ahead (k : Nat) (P late : List LogEntry) : List Instr :=
  List.replicate k Instr.spawn ++
    (P.flatMap Aggregator.AddLog ++ (Aggregator.Stop ++ late.flatMap Aggregator.AddLog))

/-- Where the client of a session stands: before `close`; between `close` and
the return of `wg.Wait()`; after `Stop` has returned. -/
def Shape {σ : Type} (late : List LogEntry) (s : World σ) : Prop :=
  (∃ k P, s.main = ahead k P late ∧ s.agg.logChan.closed = false)
  ∨ (s.main = Instr.wait :: late.flatMap Aggregator.AddLog ∧ s.agg.logChan.closed = true)
  ∨ (s.main = late.flatMap Aggregator.AddLog ∧ s.agg.logChan.closed = true ∧ s.agg.wg = 0)

/-- The world of a client that has not called `Start` and is submitting: `buf`
is queued, the `AddLog` calls for `rest` are still to be made. -/
def queueing {σ : Type} (st0 : σ) (buf rest : List LogEntry) : World σ :=
  { agg := { logChan := { buf := buf, cap := 100, closed := false }, storage := st0, wg := 0 },
    workers := [], main := rest.flatMap Aggregator.AddLog, calls := [] }

/-- A sample record. -/
def recA : LogEntry :=
  { Timestamp := 1, Source := "s1", Message := "first", Level := "INFO" }

/-- A second sample record. -/
def recB : LogEntry :=
  { Timestamp := 2, Source := "s2", Message := "second", Level := "WARN" }

/-- A third sample record. -/
def recC : LogEntry :=
  { Timestamp := 3, Source := "s3", Message := "third", Level := "ERROR" }

/-- A sink whose `StoreLog` returns an error for every record; its state counts
the calls. -/
def failingSink : LogStorage Nat :=
  { StoreLog := fun n _ => (some "write failed", n + 1) }

/-- An interleaving of `session 2 [recA, recB, recC]` in which worker 1 stores
`recB` before worker 0 stores `recA`. -/
def overtaking : List Tid :=
  [Tid.main, Tid.main, Tid.main, Tid.main, Tid.worker 0, Tid.worker 1, Tid.worker 1,
    Tid.worker 0, Tid.main, Tid.main, Tid.worker 0, Tid.worker 0, Tid.worker 1,
    Tid.worker 0, Tid.main]

/-- An interleaving of `session 1 [recA, recB]`. -/
def alternating : List Tid :=
  [Tid.main, Tid.main, Tid.worker 0, Tid.main, Tid.worker 0, Tid.worker 0, Tid.main,
    Tid.worker 0, Tid.worker 0, Tid.main]

/-- An interleaving of `session 1 [recA]` followed by a late `AddLog`. -/
def lateSchedule : List Tid :=
  [Tid.main, Tid.main, Tid.worker 0, Tid.worker 0, Tid.main, Tid.worker 0, Tid.main]

/-! ## The step function and the step relation agree -/

theorem getElem?_split {α : Type} (ws : List α) (i : Nat) (x : α) (h : ws[i]? = some x) :
    ∃ pre post, ws = pre ++ x :: post ∧ pre.length = i ∧
      ∀ y, ws.set i y = pre ++ y :: post := by
  induction ws generalizing i with
  | nil => simp at h
  | cons w ws ih =>
    cases i with
    | zero =>
      simp at h
      exact ⟨[], ws, by simp [h], rfl, fun y => by simp⟩
    | succ i =>
      simp at h
      obtain ⟨pre, post, h1, h2, h3⟩ := ih i h
      exact ⟨w :: pre, post, by simp [h1], by simp [h2], fun y => by simp [h3]⟩

theorem getElem?_append_cons_length {α : Type} (pre post : List α) (x : α) :
    (pre ++ x :: post)[pre.length]? = some x := by
  induction pre with
  | nil => simp
  | cons p pre ih => simpa using ih

theorem set_append_cons_length {α : Type} (pre post : List α) (x y : α) :
    (pre ++ x :: post).set pre.length y = pre ++ y :: post := by
  induction pre with
  | nil => simp
  | cons p pre ih => simp

theorem step_worker_eq {σ : Type} (sink : LogStorage σ) (a : Aggregator σ)
    (pre post : List Worker) (pc : Worker) (main : List Instr) (calls : List LogEntry) :
    World.step sink ⟨a, pre ++ pc :: post, main, calls⟩ (Tid.worker pre.length) =
      match Aggregator.worker sink a pc with
      | Outcome.ok (a', pc', call) =>
        Outcome.ok ⟨a', pre ++ pc' :: post, main, calls ++ call.toList⟩
      | Outcome.blocked => Outcome.blocked
      | Outcome.panic msg => Outcome.panic msg := by
  simp only [World.step, getElem?_append_cons_length, set_append_cons_length]

theorem step_of_Step {σ : Type} (sink : LogStorage σ) {s s' : World σ} {t : Tid}
    (h : Step sink s t s') : s.step sink t = Outcome.ok s' := by
  cases h with
  | spawn c st wg ws rest calls h =>
    simp [World.step, Instr.exec, WaitGroup.Add, not_lt.mpr h]
  | send buf cap st wg ws entry rest calls h =>
    simp [World.step, Instr.exec, Chan.send, h]
  | close buf cap st wg ws rest calls =>
    simp [World.step, Instr.exec, Chan.close]
  | wait c st ws rest calls =>
    simp [World.step, Instr.exec, WaitGroup.Wait]
  | recv entry buf cap closed st wg pre post main calls =>
    rw [step_worker_eq]
    simp [Aggregator.worker, Chan.recv]
  | store entry c st wg pre post main calls =>
    rw [step_worker_eq]
    simp [Aggregator.worker]
  | exit cap st wg pre post main calls h =>
    rw [step_worker_eq]
    simp [Aggregator.worker, Chan.recv, WaitGroup.Done, WaitGroup.Add, not_lt.mpr h]

theorem Step_of_step {σ : Type} (sink : LogStorage σ) {s s' : World σ} {t : Tid}
    (h : s.step sink t = Outcome.ok s') : Step sink s t s' := by
  obtain ⟨⟨⟨buf, cap, closed⟩, st, wg⟩, ws, main, calls⟩ := s
  cases t with
  | main =>
    cases main with
    | nil => simp [World.step] at h
    | cons ins rest =>
      cases ins with
      | spawn =>
        by_cases hw : wg + 1 < 0
        · simp [World.step, Instr.exec, WaitGroup.Add, hw] at h
        · simp [World.step, Instr.exec, WaitGroup.Add, hw] at h
          subst h
          exact Step.spawn _ _ _ _ _ _ (not_lt.mp hw)
      | send entry =>
        cases closed with
        | true => simp [World.step, Instr.exec, Chan.send] at h
        | false =>
          by_cases hl : buf.length < cap
          · simp [World.step, Instr.exec, Chan.send, hl] at h
            subst h
            exact Step.send _ _ _ _ _ _ _ _ hl
          · simp [World.step, Instr.exec, Chan.send, hl] at h
      | close =>
        cases closed with
        | true => simp [World.step, Instr.exec, Chan.close] at h
        | false =>
          simp [World.step, Instr.exec, Chan.close] at h
          subst h
          exact Step.close _ _ _ _ _ _ _
      | wait =>
        by_cases hw : wg = 0
        · subst hw
          simp [World.step, Instr.exec, WaitGroup.Wait] at h
          subst h
          exact Step.wait _ _ _ _ _
        · simp [World.step, Instr.exec, WaitGroup.Wait, hw] at h
  | worker i =>
    cases hi : ws[i]? with
    | none => simp [World.step, hi] at h
    | some pc =>
      obtain ⟨pre, post, h1, h2, h3⟩ := getElem?_split ws i pc hi
      subst h2
      cases pc with
      | exited => simp [World.step, hi, Aggregator.worker] at h
      | storing entry =>
        simp [World.step, hi, Aggregator.worker, h3] at h
        subst h
        subst h1
        exact Step.store _ _ _ _ _ _ _ _
      | ranging =>
        cases buf with
        | cons entry buf =>
          simp [World.step, hi, Aggregator.worker, Chan.recv, h3] at h
          subst h
          subst h1
          exact Step.recv _ _ _ _ _ _ _ _ _ _
        | nil =>
          cases closed with
          | false => simp [World.step, hi, Aggregator.worker, Chan.recv] at h
          | true =>
            by_cases hw : wg + -1 < 0
            · simp [World.step, hi, Aggregator.worker, Chan.recv, WaitGroup.Done,
                WaitGroup.Add, hw] at h
            · simp [World.step, hi, Aggregator.worker, Chan.recv, WaitGroup.Done,
                WaitGroup.Add, hw, h3] at h
              subst h
              subst h1
              exact Step.exit _ _ _ _ _ _ _ (not_lt.mp hw)

theorem step_iff {σ : Type} (sink : LogStorage σ) (s s' : World σ) (t : Tid) :
    s.step sink t = Outcome.ok s' ↔ Step sink s t s' :=
  ⟨Step_of_step sink, step_of_Step sink⟩

/-! ## Lemmas on the bookkeeping functions -/

theorem held_append (xs ys : List Worker) : held (xs ++ ys) = held xs ++ held ys := by
  induction xs with
  | nil => rfl
  | cons x xs ih => cases x <;> simp [held, ih]

theorem live_append (xs ys : List Worker) : live (xs ++ ys) = live xs + live ys := by
  induction xs with
  | nil => simp [live]
  | cons x xs ih =>
    cases x
    all_goals simp [live, ih]
    all_goals omega

theorem sends_append (xs ys : List Instr) : sends (xs ++ ys) = sends xs ++ sends ys := by
  induction xs with
  | nil => rfl
  | cons x xs ih => cases x <;> simp [sends, ih]

theorem spawns_append (xs ys : List Instr) : spawns (xs ++ ys) = spawns xs + spawns ys := by
  induction xs with
  | nil => simp [spawns]
  | cons x xs ih =>
    cases x
    all_goals simp [spawns, ih]
    all_goals omega

theorem live_eq_zero (ws : List Worker) : live ws = 0 ↔ ∀ w ∈ ws, w = Worker.exited := by
  induction ws with
  | nil => simp [live]
  | cons w ws ih => cases w <;> simp [live, ih]

theorem held_of_all_exited (ws : List Worker) (h : ∀ w ∈ ws, w = Worker.exited) :
    held ws = [] := by
  induction ws with
  | nil => rfl
  | cons w ws ih =>
    have hw := h w (by simp)
    subst hw
    exact ih (fun v hv => h v (by simp [hv]))

theorem bag_nil : bag [] = 0 := rfl

theorem bag_cons (a : LogEntry) (l : List LogEntry) : bag (a :: l) = {a} + bag l := by
  simp [bag, ← Multiset.cons_coe, Multiset.singleton_add]

theorem bag_append (xs ys : List LogEntry) : bag (xs ++ ys) = bag xs + bag ys := by
  simp [bag]

theorem bag_eq_iff (xs ys : List LogEntry) : bag xs = bag ys ↔ xs.Perm ys := by
  simp [bag]

/-! ## Invariants of every execution of every client program -/

theorem inv_init {σ : Type} (sink : LogStorage σ) (st0 : σ) (prog : List Instr) :
    Inv sink st0 prog (World.init st0 prog) := by
  constructor <;> simp [World.init, NewAggregator, Chan.make, live, held, bag_nil, sinkAfter]

theorem length_le_one_split {α : Type} {pre post : List α} {x : α}
    (h : (pre ++ x :: post).length ≤ 1) : pre = [] ∧ post = [] := by
  cases pre with
  | nil =>
    cases post with
    | nil => exact ⟨rfl, rfl⟩
    | cons p post => simp at h
  | cons p pre => simp at h

theorem inv_step {σ : Type} {sink : LogStorage σ} {st0 : σ} {prog : List Instr}
    {s s' : World σ} {t : Tid} (hinv : Inv sink st0 prog s) (hstep : Step sink s t s') :
    Inv sink st0 prog s' := by
  obtain ⟨hcap, hbound, hwg, hgone, htok, hsp, hst, hord, hidle⟩ := hinv
  cases hstep with
  | spawn c st wg ws rest calls h =>
    simp only [sends, spawns] at *
    refine ⟨hcap, hbound, ?_, ?_, ?_, ?_, hst, ?_, by simp⟩
    · simp [live_append, live, hwg]
    · intro hm
      apply hgone
      simpa using hm
    · simpa [held_append, held, bag_nil] using htok
    · simp only [List.length_append, List.length_singleton]
      omega
    · intro hl
      simp only [List.length_append, List.length_singleton] at hl
      simpa [held_append, held] using hord (by omega)
  | send buf cap st wg ws entry rest calls h =>
    simp only [sends, spawns] at *
    refine ⟨hcap, ?_, hwg, ?_, ?_, hsp, hst, ?_, hidle⟩
    · simp only [List.length_append, List.length_singleton]
      omega
    · intro hm
      have := (hgone hm).1
      simp at this
    · rw [← htok]
      simp only [bag_append, bag_cons, bag_nil]
      abel
    · intro hl
      simpa using hord hl
  | close buf cap st wg ws rest calls =>
    simp only [sends, spawns] at *
    refine ⟨hcap, hbound, hwg, ?_, htok, hsp, hst, hord, hidle⟩
    intro hm
    have := (hgone hm).1
    simp at this
  | wait c st ws rest calls =>
    simp only [sends, spawns] at *
    exact ⟨hcap, hbound, hwg, hgone, htok, hsp, hst, hord, hidle⟩
  | recv entry buf cap closed st wg pre post main calls =>
    refine ⟨hcap, ?_, ?_, ?_, ?_, ?_, hst, ?_, by simp⟩
    · simp only [List.length_cons] at hbound
      simp only
      omega
    · simpa [live_append, live] using hwg
    · intro hm
      have := (hgone (by simpa using hm)).2
      simp at this
    · rw [← htok]
      simp only [held_append, held, bag_append, bag_cons, bag_nil]
      abel
    · simpa using hsp
    · intro hl
      obtain ⟨h1, h2⟩ := length_le_one_split hl
      subst h1
      subst h2
      simpa [held] using hord (by simp)
  | store entry c st wg pre post main calls =>
    refine ⟨hcap, hbound, ?_, ?_, ?_, ?_, ?_, ?_, by simp⟩
    · simpa [live_append, live] using hwg
    · intro hm
      exact hgone (by simpa using hm)
    · rw [← htok]
      simp only [held_append, held, bag_append, bag_cons, bag_nil]
      abel
    · simpa using hsp
    · simp only at hst
      simp [sinkAfter, List.foldl_append, hst]
    · intro hl
      obtain ⟨h1, h2⟩ := length_le_one_split hl
      subst h1
      subst h2
      simpa [held] using hord (by simp)
  | exit cap st wg pre post main calls h =>
    refine ⟨hcap, hbound, ?_, ?_, ?_, ?_, hst, ?_, by simp⟩
    · simp only [live_append, live] at hwg ⊢
      rw [hwg]
      push_cast
      ring
    · intro _
      exact ⟨rfl, rfl⟩
    · rw [← htok]
      simp only [held_append, held, bag_append, bag_cons, bag_nil]
    · simpa using hsp
    · intro hl
      obtain ⟨h1, h2⟩ := length_le_one_split hl
      subst h1
      subst h2
      simpa [held] using hord (by simp)

theorem inv_run {σ : Type} {sink : LogStorage σ} {st0 : σ} {prog : List Instr}
    (ts : List Tid) {s s' : World σ} (hinv : Inv sink st0 prog s)
    (hrun : World.run sink s ts = Outcome.ok s') : Inv sink st0 prog s' := by
  induction ts generalizing s with
  | nil =>
    simp only [World.run, Outcome.ok.injEq] at hrun
    exact hrun ▸ hinv
  | cons t ts ih =>
    simp only [World.run] at hrun
    cases hs : s.step sink t with
    | ok s1 =>
      rw [hs] at hrun
      exact ih (inv_step hinv (Step_of_step sink hs)) hrun
    | blocked => simp [hs] at hrun
    | panic msg => simp [hs] at hrun

theorem inv_reach {σ : Type} {sink : LogStorage σ} {st0 : σ} {prog : List Instr}
    {ts : List Tid} {s : World σ}
    (hrun : World.run sink (World.init st0 prog) ts = Outcome.ok s) : Inv sink st0 prog s :=
  inv_run ts (inv_init sink st0 prog) hrun

/-! ## Every step consumes one unit of fuel -/

theorem step_fuel {σ : Type} {sink : LogStorage σ} {s s' : World σ} {t : Tid}
    (hstep : Step sink s t s') : s'.fuel + 1 = s.fuel := by
  cases hstep
  all_goals simp only [World.fuel, List.map_append, List.map_cons, List.map_nil, List.sum_append,
    List.sum_cons, List.sum_nil, Instr.fuel, Worker.fuel, List.length_append, List.length_cons,
    List.length_nil]
  all_goals omega

theorem ahead_succ (k : Nat) (P late : List LogEntry) :
    ahead (k + 1) P late = Instr.spawn :: ahead k P late := by
  simp [ahead, List.replicate_succ]

theorem ahead_cons (entry : LogEntry) (P late : List LogEntry) :
    ahead 0 (entry :: P) late = Instr.send entry :: ahead 0 P late := by
  simp [ahead, Aggregator.AddLog]

theorem ahead_nil (late : List LogEntry) :
    ahead 0 [] late = Instr.close :: Instr.wait :: late.flatMap Aggregator.AddLog := by
  simp [ahead, Aggregator.Stop]

theorem sends_flatMap (P : List LogEntry) : sends (P.flatMap Aggregator.AddLog) = P := by
  induction P with
  | nil => rfl
  | cons p P ih => simpa [Aggregator.AddLog, sends] using ih

theorem spawns_flatMap (P : List LogEntry) : spawns (P.flatMap Aggregator.AddLog) = 0 := by
  induction P with
  | nil => rfl
  | cons p P ih => simpa [Aggregator.AddLog, spawns] using ih

theorem sends_replicate (k : Nat) : sends (List.replicate k Instr.spawn) = [] := by
  induction k with
  | zero => rfl
  | succ k ih => simpa [List.replicate_succ, sends] using ih

theorem spawns_replicate (k : Nat) : spawns (List.replicate k Instr.spawn) = k := by
  induction k with
  | zero => rfl
  | succ k ih => simpa [List.replicate_succ, spawns] using ih

theorem sends_ahead (k : Nat) (P late : List LogEntry) : sends (ahead k P late) = P ++ late := by
  simp [ahead, sends_append, sends_replicate, sends_flatMap, Aggregator.Stop, sends]

theorem spawns_ahead (k : Nat) (P late : List LogEntry) : spawns (ahead k P late) = k := by
  simp [ahead, spawns_append, spawns_replicate, spawns_flatMap, Aggregator.Stop, spawns]

theorem session_eq_ahead (workers : Int) (L late : List LogEntry) :
    session workers L ++ late.flatMap Aggregator.AddLog = ahead workers.toNat L late := by
  simp [session, ahead, Aggregator.Start]

theorem ahead_eq_cons {k : Nat} {P late : List LogEntry} {i : Instr} {rest : List Instr}
    (h : ahead k P late = i :: rest) :
    (i = Instr.spawn ∧ ∃ k', k = k' + 1 ∧ rest = ahead k' P late)
    ∨ (∃ entry P', i = Instr.send entry ∧ k = 0 ∧ P = entry :: P' ∧ rest = ahead 0 P' late)
    ∨ (i = Instr.close ∧ k = 0 ∧ P = [] ∧
        rest = Instr.wait :: late.flatMap Aggregator.AddLog) := by
  cases k with
  | succ k =>
    rw [ahead_succ] at h
    simp only [List.cons.injEq] at h
    exact Or.inl ⟨h.1.symm, k, rfl, h.2.symm⟩
  | zero =>
    cases P with
    | nil =>
      rw [ahead_nil] at h
      simp only [List.cons.injEq] at h
      exact Or.inr (Or.inr ⟨h.1.symm, rfl, rfl, h.2.symm⟩)
    | cons entry P =>
      rw [ahead_cons] at h
      simp only [List.cons.injEq] at h
      exact Or.inr (Or.inl ⟨entry, P, h.1.symm, rfl, rfl, h.2.symm⟩)

theorem flatMap_AddLog_eq_cons {late : List LogEntry} {i : Instr} {rest : List Instr}
    (h : late.flatMap Aggregator.AddLog = i :: rest) :
    ∃ entry late', late = entry :: late' ∧ i = Instr.send entry ∧
      rest = late'.flatMap Aggregator.AddLog := by
  cases late with
  | nil => simp at h
  | cons entry late =>
    simp only [List.flatMap_cons, Aggregator.AddLog, List.singleton_append, List.cons.injEq] at h
    exact ⟨entry, late, rfl, h.1.symm, by simpa [Aggregator.AddLog] using h.2.symm⟩

theorem live_split_pos (pre post : List Worker) (w : Worker) (hw : w ≠ Worker.exited) :
    0 < live (pre ++ w :: post) := by
  rw [live_append]
  cases w with
  | exited => exact absurd rfl hw
  | ranging => simp [live]
  | storing entry => simp [live]

/-- Once `Stop` has returned, no goroutine can take a step: a late `AddLog`
does not complete and all workers have returned. -/
theorem frozen {σ : Type} {sink : LogStorage σ} {st0 : σ} {prog : List Instr}
    {late : List LogEntry} {s s' : World σ} {t : Tid} (hinv : Inv sink st0 prog s)
    (hm : s.main = late.flatMap Aggregator.AddLog) (hc : s.agg.logChan.closed = true)
    (hw : s.agg.wg = 0) : ¬ Step sink s t s' := by
  intro hstep
  have hwg := hinv.wg
  rw [hw] at hwg
  cases hstep with
  | spawn c st wg ws rest calls h =>
    obtain ⟨_, _, _, h2, _⟩ := flatMap_AddLog_eq_cons hm.symm
    cases h2
  | send buf cap st wg ws entry rest calls h => simp at hc
  | close buf cap st wg ws rest calls => simp at hc
  | wait c st ws rest calls =>
    obtain ⟨_, _, _, h2, _⟩ := flatMap_AddLog_eq_cons hm.symm
    cases h2
  | recv entry buf cap closed st wg pre post main calls =>
    have := live_split_pos pre post Worker.ranging (by simp)
    simp only at hwg
    omega
  | store entry c st wg pre post main calls =>
    have := live_split_pos pre post (Worker.storing entry) (by simp)
    simp only at hwg
    omega
  | exit cap st wg pre post main calls h =>
    have := live_split_pos pre post Worker.ranging (by simp)
    simp only at hwg
    omega

theorem shape_step {σ : Type} {sink : LogStorage σ} {st0 : σ} {prog : List Instr}
    {late : List LogEntry} {s s' : World σ} {t : Tid} (hinv : Inv sink st0 prog s)
    (hsh : Shape late s) (hstep : Step sink s t s') : Shape late s' := by
  rcases hsh with ⟨k, P, hm, hc⟩ | ⟨hm, hc⟩ | ⟨hm, hc, hw⟩
  · cases hstep with
    | spawn c st wg ws rest calls h =>
      rcases ahead_eq_cons hm.symm with ⟨_, k', _, h3⟩ | ⟨_, _, h1, _⟩ | ⟨h1, _⟩
      · exact Or.inl ⟨k', P, h3, hc⟩
      · cases h1
      · cases h1
    | send buf cap st wg ws entry rest calls h =>
      rcases ahead_eq_cons hm.symm with ⟨h1, _⟩ | ⟨_, P', _, _, _, h3⟩ | ⟨h1, _⟩
      · cases h1
      · exact Or.inl ⟨0, P', h3, rfl⟩
      · cases h1
    | close buf cap st wg ws rest calls =>
      rcases ahead_eq_cons hm.symm with ⟨h1, _⟩ | ⟨_, _, h1, _⟩ | ⟨_, _, _, h3⟩
      · cases h1
      · cases h1
      · exact Or.inr (Or.inl ⟨h3, rfl⟩)
    | wait c st ws rest calls =>
      rcases ahead_eq_cons hm.symm with ⟨h1, _⟩ | ⟨_, _, h1, _⟩ | ⟨h1, _⟩
      · cases h1
      · cases h1
      · cases h1
    | recv entry buf cap closed st wg pre post main calls => exact Or.inl ⟨k, P, hm, hc⟩
    | store entry c st wg pre post main calls => exact Or.inl ⟨k, P, hm, hc⟩
    | exit cap st wg pre post main calls h => exact Or.inl ⟨k, P, hm, hc⟩
  · cases hstep with
    | spawn c st wg ws rest calls h => cases hm
    | send buf cap st wg ws entry rest calls h => cases hm
    | close buf cap st wg ws rest calls => cases hm
    | wait c st ws rest calls =>
      simp only [List.cons.injEq, true_and] at hm
      exact Or.inr (Or.inr ⟨hm, hc, rfl⟩)
    | recv entry buf cap closed st wg pre post main calls => exact Or.inr (Or.inl ⟨hm, hc⟩)
    | store entry c st wg pre post main calls => exact Or.inr (Or.inl ⟨hm, hc⟩)
    | exit cap st wg pre post main calls h => exact Or.inr (Or.inl ⟨hm, hc⟩)
  · exact absurd hstep (frozen hinv hm hc hw)

theorem shape_init {σ : Type} (st0 : σ) (workers : Int) (L late : List LogEntry) :
    Shape late (World.init st0 (session workers L ++ late.flatMap Aggregator.AddLog)) :=
  Or.inl ⟨workers.toNat, L, session_eq_ahead workers L late, rfl⟩

theorem shape_run {σ : Type} {sink : LogStorage σ} {st0 : σ} {prog : List Instr}
    {late : List LogEntry} (ts : List Tid) {s s' : World σ} (hinv : Inv sink st0 prog s)
    (hsh : Shape late s) (hrun : World.run sink s ts = Outcome.ok s') : Shape late s' := by
  induction ts generalizing s with
  | nil =>
    simp only [World.run, Outcome.ok.injEq] at hrun
    exact hrun ▸ hsh
  | cons t ts ih =>
    simp only [World.run] at hrun
    cases hs : s.step sink t with
    | ok s1 =>
      rw [hs] at hrun
      have hst := Step_of_step sink hs
      exact ih (inv_step hinv hst) (shape_step hinv hsh hst) hrun
    | blocked => simp [hs] at hrun
    | panic msg => simp [hs] at hrun

/-- In a session, the client stands right after `Stop` exactly in the third phase. -/
theorem shape_returned {σ : Type} {late : List LogEntry} {s : World σ} (hsh : Shape late s)
    (hm : s.main = late.flatMap Aggregator.AddLog) :
    s.agg.logChan.closed = true ∧ s.agg.wg = 0 := by
  rcases hsh with ⟨k, P, h1, _⟩ | ⟨h1, _⟩ | ⟨_, hc, hw⟩
  · have h2 := congrArg List.length (hm.symm.trans h1)
    simp [ahead, Aggregator.Stop] at h2
    omega
  · have h2 := congrArg List.length (hm.symm.trans h1)
    simp at h2
  · exact ⟨hc, hw⟩

/-! ## What holds once `Stop` has returned -/

theorem returned_facts {σ : Type} {sink : LogStorage σ} {st0 : σ} {workers : Int}
    {L late : List LogEntry} {s : World σ}
    (hinv : Inv sink st0 (session workers L ++ late.flatMap Aggregator.AddLog) s)
    (hsh : Shape late s) (hm : s.main = late.flatMap Aggregator.AddLog) :
    s.agg.logChan.closed = true ∧ s.agg.wg = 0 ∧ (∀ w ∈ s.workers, w = Worker.exited) ∧
      s.workers.length = workers.toNat ∧
      (1 ≤ workers → s.agg.logChan.buf = [] ∧ s.calls.Perm L) := by
  obtain ⟨hc, hw⟩ := shape_returned hsh hm
  have hwg := hinv.wg
  rw [hw] at hwg
  have hlive : live s.workers = 0 := by omega
  have hall := (live_eq_zero s.workers).mp hlive
  have hlen : s.workers.length = workers.toNat := by
    have := hinv.spawned
    rw [hm, spawns_flatMap, session_eq_ahead, spawns_ahead] at this
    omega
  refine ⟨hc, hw, hall, hlen, fun h1 => ?_⟩
  have hne : s.workers ≠ [] := by
    intro h0
    rw [h0] at hlen
    simp only [List.length_nil] at hlen
    omega
  obtain ⟨w, hwmem⟩ := List.exists_mem_of_ne_nil _ hne
  have hbuf := (hinv.gone (hall w hwmem ▸ hwmem)).2
  refine ⟨hbuf, ?_⟩
  have htok := hinv.tokens
  rw [hm, hbuf, held_of_all_exited _ hall, sends_flatMap, session_eq_ahead, sends_ahead,
    bag_append, bag_nil, add_zero, add_zero] at htok
  exact (bag_eq_iff _ _).mp (add_right_cancel htok)

/-! ## No step of a session panics -/

theorem step_panic {σ : Type} (sink : LogStorage σ) {s : World σ} {t : Tid} {msg : String}
    (h : s.step sink t = Outcome.panic msg) :
    (∃ rest, s.main = Instr.spawn :: rest ∧ s.agg.wg + 1 < 0)
    ∨ (∃ entry rest, s.main = Instr.send entry :: rest ∧ s.agg.logChan.closed = true)
    ∨ (∃ rest, s.main = Instr.close :: rest ∧ s.agg.logChan.closed = true)
    ∨ (∃ pre post, s.workers = pre ++ Worker.ranging :: post ∧ s.agg.wg + -1 < 0) := by
  obtain ⟨⟨⟨buf, cap, closed⟩, st, wg⟩, ws, main, calls⟩ := s
  cases t with
  | main =>
    cases main with
    | nil => simp [World.step] at h
    | cons ins rest =>
      cases ins with
      | spawn =>
        by_cases hw : wg + 1 < 0
        · exact Or.inl ⟨rest, rfl, hw⟩
        · simp [World.step, Instr.exec, WaitGroup.Add, hw] at h
      | send entry =>
        cases closed with
        | true => exact Or.inr (Or.inl ⟨entry, rest, rfl, rfl⟩)
        | false =>
          by_cases hl : buf.length < cap
          · simp [World.step, Instr.exec, Chan.send, hl] at h
          · simp [World.step, Instr.exec, Chan.send, hl] at h
      | close =>
        cases closed with
        | true => exact Or.inr (Or.inr (Or.inl ⟨rest, rfl, rfl⟩))
        | false => simp [World.step, Instr.exec, Chan.close] at h
      | wait =>
        by_cases hw : wg = 0
        · simp [World.step, Instr.exec, WaitGroup.Wait, hw] at h
        · simp [World.step, Instr.exec, WaitGroup.Wait, hw] at h
  | worker i =>
    cases hi : ws[i]? with
    | none => simp [World.step, hi] at h
    | some pc =>
      obtain ⟨pre, post, h1, h2, h3⟩ := getElem?_split ws i pc hi
      cases pc with
      | exited => simp [World.step, hi, Aggregator.worker] at h
      | storing entry => simp [World.step, hi, Aggregator.worker] at h
      | ranging =>
        cases buf with
        | cons entry buf => simp [World.step, hi, Aggregator.worker, Chan.recv] at h
        | nil =>
          cases closed with
          | false => simp [World.step, hi, Aggregator.worker, Chan.recv] at h
          | true =>
            by_cases hw : wg + -1 < 0
            · exact Or.inr (Or.inr (Or.inr ⟨pre, post, h1, hw⟩))
            · simp [World.step, hi, Aggregator.worker, Chan.recv, WaitGroup.Done,
                WaitGroup.Add, hw] at h

theorem no_panic_step {σ : Type} {sink : LogStorage σ} {st0 : σ} {prog : List Instr}
    {s : World σ} (hinv : Inv sink st0 prog s) (hsh : Shape [] s) (t : Tid) (msg : String) :
    s.step sink t ≠ Outcome.panic msg := by
  intro h
  have hwg := hinv.wg
  rcases step_panic sink h with ⟨rest, _, h2⟩ | ⟨entry, rest, h1, h2⟩ | ⟨rest, h1, h2⟩ |
    ⟨pre, post, h1, h2⟩
  · omega
  · rcases hsh with ⟨k, P, h3, h4⟩ | ⟨h3, _⟩ | ⟨h3, _⟩
    · rw [h2] at h4
      cases h4
    · rw [h1] at h3
      cases h3
    · rw [h1] at h3
      cases h3
  · rcases hsh with ⟨k, P, h3, h4⟩ | ⟨h3, _⟩ | ⟨h3, _⟩
    · rw [h2] at h4
      cases h4
    · rw [h1] at h3
      cases h3
    · rw [h1] at h3
      cases h3
  · have := live_split_pos pre post Worker.ranging (by simp)
    rw [h1] at hwg
    omega

theorem no_panic_run {σ : Type} {sink : LogStorage σ} {st0 : σ} {prog : List Instr}
    (ts : List Tid) {s : World σ} (hinv : Inv sink st0 prog s) (hsh : Shape [] s)
    (msg : String) : World.run sink s ts ≠ Outcome.panic msg := by
  induction ts generalizing s with
  | nil => simp [World.run]
  | cons t ts ih =>
    simp only [World.run]
    cases hs : s.step sink t with
    | ok s1 =>
      have hst := Step_of_step sink hs
      exact ih (inv_step hinv hst) (shape_step hinv hsh hst)
    | blocked => simp
    | panic m => exact absurd hs (no_panic_step hinv hsh t m)

/-! ## A session with at least one worker never deadlocks -/

theorem worker_progress {σ : Type} {sink : LogStorage σ} {st0 : σ} {prog : List Instr}
    {s : World σ} (hinv : Inv sink st0 prog s) (pre post : List Worker) (w : Worker)
    (hws : s.workers = pre ++ w :: post) (hw : w ≠ Worker.exited)
    (h : s.agg.logChan.buf ≠ [] ∨ s.agg.logChan.closed = true) :
    ∃ s', Step sink s (Tid.worker pre.length) s' := by
  have hwg := hinv.wg
  obtain ⟨⟨⟨buf, cap, closed⟩, st, wg⟩, ws, main, calls⟩ := s
  simp only at hws h hwg
  subst hws
  cases w with
  | exited => exact absurd rfl hw
  | storing entry => exact ⟨_, Step.store _ _ _ _ _ _ _ _⟩
  | ranging =>
    cases buf with
    | cons entry buf => exact ⟨_, Step.recv _ _ _ _ _ _ _ _ _ _⟩
    | nil =>
      rcases h with h | h
      · exact absurd rfl h
      · subst h
        have := live_split_pos pre post Worker.ranging (by simp)
        exact ⟨_, Step.exit _ _ _ _ _ _ _ (by omega)⟩

theorem live_pos_split (ws : List Worker) (h : 0 < live ws) :
    ∃ pre w post, ws = pre ++ w :: post ∧ w ≠ Worker.exited := by
  induction ws with
  | nil => simp [live] at h
  | cons v ws ih =>
    cases v with
    | ranging => exact ⟨[], Worker.ranging, ws, rfl, by simp⟩
    | storing entry => exact ⟨[], Worker.storing entry, ws, rfl, by simp⟩
    | exited =>
      obtain ⟨pre, w, post, h1, h2⟩ := ih (by simpa [live] using h)
      exact ⟨Worker.exited :: pre, w, post, by simp [h1], h2⟩

theorem progress {σ : Type} {sink : LogStorage σ} {st0 : σ} {workers : Int}
    {L : List LogEntry} {s : World σ}
    (hinv : Inv sink st0 (session workers L ++ ([] : List LogEntry).flatMap Aggregator.AddLog) s)
    (hsh : Shape [] s) (h1 : 1 ≤ workers) (hm : s.main ≠ []) :
    ∃ t s', Step sink s t s' := by
  have hwg := hinv.wg
  have hcap := hinv.cap
  have hsp := hinv.spawned
  have hgone := hinv.gone
  rw [session_eq_ahead, spawns_ahead] at hsp
  rcases hsh with ⟨k, P, h3, h4⟩ | ⟨h3, h4⟩ | ⟨h3, _⟩
  · cases k with
    | succ k =>
      obtain ⟨⟨⟨buf, cap, closed⟩, st, wg⟩, ws, main, calls⟩ := s
      simp only at h3 hwg
      rw [ahead_succ] at h3
      subst h3
      exact ⟨Tid.main, _, Step.spawn _ _ _ _ _ _ (by omega)⟩
    | zero =>
      cases P with
      | nil =>
        obtain ⟨⟨⟨buf, cap, closed⟩, st, wg⟩, ws, main, calls⟩ := s
        simp only at h3 h4
        rw [ahead_nil] at h3
        subst h3
        subst h4
        exact ⟨Tid.main, _, Step.close _ _ _ _ _ _ _⟩
      | cons entry P =>
        by_cases hl : s.agg.logChan.buf.length < s.agg.logChan.cap
        · obtain ⟨⟨⟨buf, cap, closed⟩, st, wg⟩, ws, main, calls⟩ := s
          simp only at h3 h4 hl
          rw [ahead_cons] at h3
          subst h3
          subst h4
          exact ⟨Tid.main, _, Step.send _ _ _ _ _ _ _ _ hl⟩
        · rw [h3, spawns_ahead] at hsp
          have hne : s.agg.logChan.buf ≠ [] := by
            intro h0
            rw [h0, hcap] at hl
            simp at hl
          cases hws : s.workers with
          | nil =>
            rw [hws] at hsp
            simp only [List.length_nil] at hsp
            omega
          | cons w ws =>
            have hw : w ≠ Worker.exited := by
              intro h0
              have := (hgone (by rw [hws, h0]; simp)).1
              rw [h4] at this
              cases this
            obtain ⟨s', hs'⟩ := worker_progress hinv [] ws w hws hw (Or.inl hne)
            exact ⟨_, s', hs'⟩
  · by_cases hz : s.agg.wg = 0
    · obtain ⟨⟨⟨buf, cap, closed⟩, st, wg⟩, ws, main, calls⟩ := s
      simp only at h3 hz
      subst h3
      subst hz
      exact ⟨Tid.main, _, Step.wait _ _ _ _ _⟩
    · obtain ⟨pre, w, post, h5, h6⟩ := live_pos_split s.workers (by omega)
      obtain ⟨s', hs'⟩ := worker_progress hinv pre post w h5 h6 (Or.inr h4)
      exact ⟨_, s', hs'⟩
  · exact absurd (by simpa using h3) hm

/-- A session with at least one worker can always be run to the return of `Stop`. -/
theorem can_finish {σ : Type} {sink : LogStorage σ} {st0 : σ} {workers : Int}
    {L : List LogEntry} (h1 : 1 ≤ workers) (n : Nat) (s : World σ)
    (hinv : Inv sink st0 (session workers L ++ ([] : List LogEntry).flatMap Aggregator.AddLog) s)
    (hsh : Shape [] s) (hn : s.fuel = n) :
    ∃ ts s', World.run sink s ts = Outcome.ok s' ∧ s'.main = [] := by
  induction n generalizing s with
  | zero =>
    by_cases hm : s.main = []
    · exact ⟨[], s, rfl, hm⟩
    · obtain ⟨t, s1, hst⟩ := progress hinv hsh h1 hm
      have := step_fuel hst
      omega
  | succ n ih =>
    by_cases hm : s.main = []
    · exact ⟨[], s, rfl, hm⟩
    · obtain ⟨t, s1, hst⟩ := progress hinv hsh h1 hm
      have hf := step_fuel hst
      obtain ⟨ts, s', h2, h3⟩ := ih s1 (inv_step hinv hst) (shape_step hinv hsh hst) (by omega)
      refine ⟨t :: ts, s', ?_, h3⟩
      simp only [World.run, step_of_Step sink hst]
      exact h2

/-! ## The in-memory store as the sink -/

theorem storeAll_logs (m : MemoryStorage) (rs : List LogEntry) :
    (m.storeAll rs).logs = m.logs ++ rs := by
  induction rs generalizing m with
  | nil => simp [MemoryStorage.storeAll]
  | cons r rs ih =>
    have := ih (m.StoreLog r).2
    simp only [MemoryStorage.storeAll, List.foldl_cons] at this ⊢
    rw [this]
    simp [MemoryStorage.StoreLog]

theorem sinkAfter_memory (m : MemoryStorage) (calls : List LogEntry) :
    (sinkAfter memorySink m calls).logs = m.logs ++ calls :=
  storeAll_logs m calls

theorem session_nil (workers : Int) (L : List LogEntry) :
    session workers L ++ ([] : List LogEntry).flatMap Aggregator.AddLog = session workers L := by
  simp

theorem session_reach {σ : Type} {sink : LogStorage σ} {st0 : σ} {workers : Int}
    {L : List LogEntry} {ts : List Tid} {s : World σ}
    (hrun : World.run sink (World.init st0 (session workers L)) ts = Outcome.ok s) :
    Inv sink st0 (session workers L ++ ([] : List LogEntry).flatMap Aggregator.AddLog) s ∧
      Shape [] s := by
  rw [← session_nil workers L] at hrun
  exact ⟨inv_reach hrun, shape_run ts (inv_init sink st0 _) (shape_init st0 workers L []) hrun⟩

theorem session_can_finish {σ : Type} (sink : LogStorage σ) (st0 : σ) {workers : Int}
    (h1 : 1 ≤ workers) (L : List LogEntry) :
    ∃ ts s, World.run sink (World.init st0 (session workers L)) ts = Outcome.ok s ∧
      s.main = [] := by
  have h := can_finish h1 _
    (World.init st0 (session workers L ++ ([] : List LogEntry).flatMap Aggregator.AddLog))
    (inv_init sink st0 _) (shape_init st0 workers L []) rfl
  rwa [session_nil] at h

/-- C1 (no loss, no double processing): for every worker count `workers ≥ 1`
and every list `L` of submitted records, with an initially empty
`MemoryStorage` as the sink, `Stop` can return, and in every world of every
interleaving in which `Stop` has returned `GetLogs` is a permutation of `L`: it
has `length L` records, each record occurs as often as it was submitted, and
if the submitted records are pairwise distinct so are the stored ones. -/
theorem no_loss_no_double_processing (workers : Int) (hw : 1 ≤ workers) (L : List LogEntry) :
    (∃ ts s, World.run memorySink (World.init NewMemoryStorage (session workers L)) ts
        = Outcome.ok s ∧ s.main = []) ∧
    ∀ ts s, World.run memorySink (World.init NewMemoryStorage (session workers L)) ts
        = Outcome.ok s → s.main = [] →
      (s.agg.storage.GetLogs).1.Perm L ∧ (s.agg.storage.GetLogs).1.length = L.length ∧
      (∀ r, (s.agg.storage.GetLogs).1.count r = L.count r) ∧
      (L.Nodup → (s.agg.storage.GetLogs).1.Nodup) := by
  refine ⟨session_can_finish memorySink NewMemoryStorage hw L, fun ts s hrun hm => ?_⟩
  obtain ⟨hinv, hsh⟩ := session_reach hrun
  obtain ⟨_, _, _, _, h5⟩ := returned_facts hinv hsh (by simpa using hm)
  have hlogs : (s.agg.storage.GetLogs).1 = s.calls := by
    have := congrArg MemoryStorage.logs hinv.storage
    rw [sinkAfter_memory] at this
    simpa [MemoryStorage.GetLogs, NewMemoryStorage] using this
  rw [hlogs]
  exact ⟨(h5 hw).2, (h5 hw).2.length_eq, fun r => (h5 hw).2.count_eq r,
    fun hnd => (h5 hw).2.nodup_iff.mpr hnd⟩

/-- Witness of C1: two workers, three records, an interleaving in which the
second record is stored first. -/
theorem no_loss_no_double_processing_witness :
    (1 : Int) ≤ 2 ∧
    ∃ s, World.run memorySink (World.init NewMemoryStorage (session 2 [recA, recB, recC]))
        overtaking = Outcome.ok s ∧
      s.main = [] ∧ (s.agg.storage.GetLogs).1 = [recB, recA, recC] ∧
      (s.agg.storage.GetLogs).1.Perm [recA, recB, recC] :=
  ⟨by decide, _, rfl, rfl, rfl,
    ((no_loss_no_double_processing 2 (by decide) [recA, recB, recC]).2 overtaking _ rfl rfl).1⟩

theorem sends_session (workers : Int) (L : List LogEntry) : sends (session workers L) = L := by
  have := sends_ahead workers.toNat L []
  rw [← session_eq_ahead, session_nil] at this
  simpa using this

/-- C4 (`StoreLog` is an unconditional append): a new store holds the empty
sequence, and for every store and every record `StoreLog` returns no error and
afterwards `GetLogs` is the former sequence followed by that record, field for
field. -/
theorem storeLog_appends :
    (NewMemoryStorage.GetLogs).1 = [] ∧
    ∀ (m : MemoryStorage) (r : LogEntry),
      (m.StoreLog r).1 = none ∧
      ((m.StoreLog r).2.GetLogs).1 = (m.GetLogs).1 ++ [r] ∧
      ∃ r', ((m.StoreLog r).2.GetLogs).1.getLast? = some r' ∧
        r'.Timestamp = r.Timestamp ∧ r'.Source = r.Source ∧
        r'.Message = r.Message ∧ r'.Level = r.Level := by
  refine ⟨rfl, fun m r => ⟨rfl, rfl, r, ?_, rfl, rfl, rfl, rfl⟩⟩
  simp [MemoryStorage.StoreLog, MemoryStorage.GetLogs]

/-- C5 (snapshots are monotone and read-only): `GetLogs` leaves the store as it
is; a snapshot taken before any number of `StoreLog` calls is an initial
segment of the snapshot taken after them (which is the earlier one followed by
the stored records), so the length does not decrease; and the snapshot of a
store made by `NewMemoryStorage` is exactly the records passed to `StoreLog`. -/
theorem snapshots_monotone (m : MemoryStorage) (rs : List LogEntry) :
    (m.GetLogs).2 = m ∧
    (m.GetLogs).1 <+: (((m.GetLogs).2.storeAll rs).GetLogs).1 ∧
    (((m.GetLogs).2.storeAll rs).GetLogs).1 = (m.GetLogs).1 ++ rs ∧
    (m.GetLogs).1.length ≤ (((m.GetLogs).2.storeAll rs).GetLogs).1.length ∧
    ((NewMemoryStorage.storeAll rs).GetLogs).1 = rs := by
  have h : (((m.GetLogs).2.storeAll rs).GetLogs).1 = (m.GetLogs).1 ++ rs := by
    simp [MemoryStorage.GetLogs, storeAll_logs]
  refine ⟨rfl, ⟨rs, h.symm⟩, h, ?_, ?_⟩
  · rw [h]
    simp
  · simp [MemoryStorage.GetLogs, storeAll_logs, NewMemoryStorage]

/-- C7 (keep draining on sink failure): for every sink, also one whose
`StoreLog` fails, every worker count `workers ≥ 1` and every list `L`: a worker
that has called `StoreLog` goes back to the head of its loop whatever the
result; `Stop` can return; no interleaving panics; and once `Stop` has returned
`StoreLog` has been called exactly once per submitted record and all
`workers` workers have returned. -/
theorem keep_draining_on_sink_failure {σ : Type} (sink : LogStorage σ) (st0 : σ)
    (workers : Int) (hw : 1 ≤ workers) (L : List LogEntry) :
    (∀ (a : Aggregator σ) (entry : LogEntry),
      Aggregator.worker sink a (Worker.storing entry) =
        Outcome.ok ({ a with storage := (sink.StoreLog a.storage entry).2 }, Worker.ranging,
          some entry)) ∧
    (∃ ts s, World.run sink (World.init st0 (session workers L)) ts = Outcome.ok s ∧
      s.main = []) ∧
    (∀ ts msg, World.run sink (World.init st0 (session workers L)) ts ≠ Outcome.panic msg) ∧
    ∀ ts s, World.run sink (World.init st0 (session workers L)) ts = Outcome.ok s →
      s.main = [] →
        s.calls.Perm L ∧ (∀ r, s.calls.count r = L.count r) ∧
        s.agg.storage = sinkAfter sink st0 s.calls ∧
        s.workers.length = workers.toNat ∧ (∀ w ∈ s.workers, w = Worker.exited) := by
  refine ⟨fun a entry => rfl, session_can_finish sink st0 hw L, fun ts msg => ?_,
    fun ts s hrun hm => ?_⟩
  · have h := no_panic_run ts (inv_init sink st0 (session workers L ++
      ([] : List LogEntry).flatMap Aggregator.AddLog)) (shape_init st0 workers L []) msg
    rwa [session_nil] at h
  · obtain ⟨hinv, hsh⟩ := session_reach hrun
    obtain ⟨_, _, h3, h4, h5⟩ := returned_facts hinv hsh (by simpa using hm)
    exact ⟨(h5 hw).2, fun r => (h5 hw).2.count_eq r, hinv.storage, h4, h3⟩

/-- Witness of C7: the sink that fails on every record, one worker, two
records; both records are handed to `StoreLog`, in two calls. -/
theorem keep_draining_on_sink_failure_witness :
    (1 : Int) ≤ 1 ∧
    ∃ s, World.run failingSink (World.init 0 (session 1 [recA, recB])) alternating
        = Outcome.ok s ∧ s.main = [] ∧ s.agg.storage = 2 ∧ s.calls.Perm [recA, recB] :=
  ⟨by decide, _, rfl, rfl, rfl,
    ((keep_draining_on_sink_failure failingSink 0 1 (by decide) [recA, recB]).2.2.2
      alternating _ rfl rfl).1⟩

/-- C10 (FIFO through a single worker): the channel appends at the back and
hands out the front; and for one worker, an initially empty `MemoryStorage` and
a client submitting `L` in order, `Stop` can return and in every world in which
it has returned `GetLogs` is `L` itself, in the same order. -/
theorem fifo_single_worker (L : List LogEntry) :
    (∀ (c c' : Chan) (entry : LogEntry), c.send entry = Outcome.ok c' →
      c'.buf = c.buf ++ [entry]) ∧
    (∀ (c : Chan) (entry : LogEntry) (rest : List LogEntry), c.buf = entry :: rest →
      c.recv = Outcome.ok (some entry, { c with buf := rest })) ∧
    (∃ ts s, World.run memorySink (World.init NewMemoryStorage (session 1 L)) ts
        = Outcome.ok s ∧ s.main = []) ∧
    ∀ ts s, World.run memorySink (World.init NewMemoryStorage (session 1 L)) ts
        = Outcome.ok s → s.main = [] → (s.agg.storage.GetLogs).1 = L := by
  refine ⟨fun c c' entry h => ?_, fun c entry rest h => ?_,
    session_can_finish memorySink NewMemoryStorage (by decide) L, fun ts s hrun hm => ?_⟩
  · unfold Chan.send at h
    split at h
    · cases h
    · split at h
      · cases h
        rfl
      · cases h
  · simp [Chan.recv, h]
  · obtain ⟨hinv, hsh⟩ := session_reach hrun
    obtain ⟨_, _, h3, h4, h5⟩ := returned_facts hinv hsh (by simpa using hm)
    have hord := hinv.order (by rw [h4]; decide)
    rw [session_nil, sends_session, (h5 (by decide)).1, held_of_all_exited _ h3, hm] at hord
    have hlogs : (s.agg.storage.GetLogs).1 = s.calls := by
      have := congrArg MemoryStorage.logs hinv.storage
      rw [sinkAfter_memory] at this
      simpa [MemoryStorage.GetLogs, NewMemoryStorage] using this
    rw [hlogs]
    simpa [sends] using hord

/-! ## A client that only submits -/

theorem queueing_step {σ : Type} (sink : LogStorage σ) (st0 : σ) (buf rest : List LogEntry)
    {t : Tid} {s' : World σ} (hstep : Step sink (queueing st0 buf rest) t s') :
    t = Tid.main ∧ buf.length < 100 ∧
      ∃ entry rest', rest = entry :: rest' ∧ s' = queueing st0 (buf ++ [entry]) rest' := by
  generalize hq : queueing st0 buf rest = s at hstep
  cases hstep with
  | spawn c st wg ws rest1 calls h =>
    simp only [queueing, World.mk.injEq] at hq
    obtain ⟨_, _, _, h2, _⟩ := flatMap_AddLog_eq_cons hq.2.2.1
    cases h2
  | send buf1 cap st wg ws entry rest1 calls h =>
    simp only [queueing, World.mk.injEq, Aggregator.mk.injEq, Chan.mk.injEq] at hq
    obtain ⟨⟨⟨hb, hcap, _⟩, hst, hwg⟩, hws, hmain, hcalls⟩ := hq
    obtain ⟨e, rest', h1, h2, h3⟩ := flatMap_AddLog_eq_cons hmain
    cases h2
    subst hb hcap hst hwg hws hcalls h1 h3
    exact ⟨rfl, h, entry, rest', rfl, rfl⟩
  | close buf1 cap st wg ws rest1 calls =>
    simp only [queueing, World.mk.injEq] at hq
    obtain ⟨_, _, _, h2, _⟩ := flatMap_AddLog_eq_cons hq.2.2.1
    cases h2
  | wait c st ws rest1 calls =>
    simp only [queueing, World.mk.injEq] at hq
    obtain ⟨_, _, _, h2, _⟩ := flatMap_AddLog_eq_cons hq.2.2.1
    cases h2
  | recv entry buf1 cap closed st wg pre post main calls =>
    simp [queueing] at hq
  | store entry c st wg pre post main calls =>
    simp [queueing] at hq
  | exit cap st wg pre post main calls h =>
    simp [queueing] at hq

theorem queueing_run {σ : Type} (sink : LogStorage σ) (st0 : σ) (ts : List Tid)
    (buf rest : List LogEntry) (hb : buf.length ≤ 100) {s : World σ}
    (hrun : World.run sink (queueing st0 buf rest) ts = Outcome.ok s) :
    ∃ buf' rest', s = queueing st0 buf' rest' ∧ buf'.length ≤ 100 ∧
      buf ++ rest = buf' ++ rest' := by
  induction ts generalizing buf rest with
  | nil =>
    simp only [World.run, Outcome.ok.injEq] at hrun
    exact ⟨buf, rest, hrun.symm, hb, rfl⟩
  | cons t ts ih =>
    simp only [World.run] at hrun
    cases hs : (queueing st0 buf rest).step sink t with
    | ok s1 =>
      rw [hs] at hrun
      obtain ⟨_, hlt, entry, rest1, h1, h2⟩ := queueing_step sink st0 buf rest
        (Step_of_step sink hs)
      subst h1 h2
      obtain ⟨buf', rest', h3, h4, h5⟩ := ih (buf ++ [entry]) rest1
        (by simp only [List.length_append, List.length_singleton]; omega) hrun
      exact ⟨buf', rest', h3, h4, by simpa using h5⟩
    | blocked => simp [hs] at hrun
    | panic msg => simp [hs] at hrun

theorem queueing_full_blocked {σ : Type} (sink : LogStorage σ) (st0 : σ)
    (buf rest : List LogEntry) (hb : buf.length = 100) (t : Tid) :
    (queueing st0 buf rest).step sink t = Outcome.blocked := by
  cases hs : (queueing st0 buf rest).step sink t with
  | ok s1 =>
    obtain ⟨_, hlt, _⟩ := queueing_step sink st0 buf rest (Step_of_step sink hs)
    omega
  | blocked => rfl
  | panic msg =>
    rcases step_panic sink hs with ⟨_, _, h2⟩ | ⟨_, _, _, h2⟩ | ⟨_, _, h2⟩ | ⟨_, _, h1, _⟩
    · simp [queueing] at h2
    · simp [queueing] at h2
    · simp [queueing] at h2
    · simp [queueing] at h1

theorem queueing_sends {σ : Type} (sink : LogStorage σ) (st0 : σ) (k : Nat)
    (buf rest : List LogEntry) (hb : buf.length + k ≤ 100) (hk : k ≤ rest.length) :
    World.run sink (queueing st0 buf rest) (List.replicate k Tid.main) =
      Outcome.ok (queueing st0 (buf ++ rest.take k) (rest.drop k)) := by
  induction k generalizing buf rest with
  | zero => simp [World.run]
  | succ k ih =>
    cases rest with
    | nil => simp at hk
    | cons entry rest =>
      have hlt : buf.length < 100 := by omega
      have hs : (queueing st0 buf (entry :: rest)).step sink Tid.main =
          Outcome.ok (queueing st0 (buf ++ [entry]) rest) := by
        simp [queueing, World.step, Instr.exec, Chan.send, Aggregator.AddLog, hlt]
      simp only [List.replicate_succ, World.run, hs]
      rw [ih (buf ++ [entry]) rest
        (by simp only [List.length_append, List.length_singleton]; omega)
        (by simpa using hk)]
      simp

theorem init_eq_queueing {σ : Type} (st0 : σ) (L : List LogEntry) :
    World.init st0 (L.flatMap Aggregator.AddLog) = queueing st0 [] L := rfl

/-- C9 (construction): `NewAggregator(sink)` is bound to the sink, its queue
is open, empty and of capacity 100, its wait-group counter is 0 and no worker
exists; and for a client that only calls `AddLog` (no `Start`), in every
reachable world no `StoreLog` call has been made, the sink is untouched, there
is no worker, and the queue holds the records submitted so far, at most 100. -/
theorem construction {σ : Type} (sink : LogStorage σ) (st0 : σ) (L : List LogEntry) :
    (NewAggregator st0).storage = st0 ∧
    (NewAggregator st0).logChan = { buf := [], cap := 100, closed := false } ∧
    (NewAggregator st0).wg = 0 ∧
    (World.init st0 (L.flatMap Aggregator.AddLog)).workers = [] ∧
    ∀ ts s, World.run sink (World.init st0 (L.flatMap Aggregator.AddLog)) ts = Outcome.ok s →
      s.calls = [] ∧ s.agg.storage = st0 ∧ s.workers = [] ∧
      s.agg.logChan.closed = false ∧ s.agg.logChan.buf.length ≤ 100 ∧
      ∃ rest, L = s.agg.logChan.buf ++ rest ∧ s.main = rest.flatMap Aggregator.AddLog := by
  refine ⟨rfl, rfl, rfl, rfl, fun ts s hrun => ?_⟩
  rw [init_eq_queueing] at hrun
  obtain ⟨buf', rest', h1, h2, h3⟩ := queueing_run sink st0 ts [] L (by simp) hrun
  subst h1
  exact ⟨rfl, rfl, rfl, rfl, h2, rest', by simpa using h3, rfl⟩

/-- C6 (back-pressure): the queue made by `NewAggregator` has capacity 100; in
every reachable world of every client program the queue holds at most 100
records; with no worker, the first 100 `AddLog` calls of a client complete and
then nothing can step, so the 101st call is blocked; an `AddLog` completes only
when the queue holds fewer than 100 records; and the only step that shortens
the queue is a worker receiving its front record. -/
theorem back_pressure {σ : Type} (sink : LogStorage σ) (st0 : σ) :
    (NewAggregator st0).logChan.cap = 100 ∧
    (∀ prog ts s, World.run sink (World.init st0 prog) ts = Outcome.ok s →
      s.agg.logChan.cap = 100 ∧ s.agg.logChan.buf.length ≤ 100) ∧
    (∀ L : List LogEntry, 100 < L.length →
      ∃ s, World.run sink (World.init st0 (L.flatMap Aggregator.AddLog))
          (List.replicate 100 Tid.main) = Outcome.ok s ∧
        s.agg.logChan.buf = L.take 100 ∧
        s.main = (L.drop 100).flatMap Aggregator.AddLog ∧ s.main ≠ [] ∧
        ∀ t, s.step sink t = Outcome.blocked) ∧
    (∀ (L : List LogEntry) ts s,
      World.run sink (World.init st0 (L.flatMap Aggregator.AddLog)) ts = Outcome.ok s →
        s.agg.logChan.buf.length = 100 → ∀ t, s.step sink t = Outcome.blocked) ∧
    (∀ (s s' : World σ) entry rest, s.main = Aggregator.AddLog entry ++ rest →
      s.step sink Tid.main = Outcome.ok s' →
        s.agg.logChan.buf.length < s.agg.logChan.cap ∧
        s'.agg.logChan.buf = s.agg.logChan.buf ++ [entry]) ∧
    (∀ (s s' : World σ) t, s.step sink t = Outcome.ok s' →
      s'.agg.logChan.buf.length < s.agg.logChan.buf.length →
        ∃ i entry, t = Tid.worker i ∧ s.workers[i]? = some Worker.ranging ∧
          s'.workers[i]? = some (Worker.storing entry) ∧
          s.agg.logChan.buf = entry :: s'.agg.logChan.buf) := by
  refine ⟨rfl, fun prog ts s hrun => ?_, fun L hL => ?_, fun L ts s hrun hfull t => ?_,
    fun s s' entry rest hm hs => ?_, fun s s' t hs hlt => ?_⟩
  · have hinv := inv_reach hrun
    exact ⟨hinv.cap, hinv.bound⟩
  · refine ⟨queueing st0 (L.take 100) (L.drop 100), ?_, rfl, rfl, ?_, ?_⟩
    · rw [init_eq_queueing]
      simpa using queueing_sends sink st0 100 [] L (by simp) (by omega)
    · cases hd : L.drop 100 with
      | nil =>
        have := congrArg List.length hd
        simp only [List.length_drop, List.length_nil] at this
        omega
      | cons e es => simp [queueing, hd, Aggregator.AddLog]
    · exact queueing_full_blocked sink st0 _ _ (by simp only [List.length_take]; omega)
  · rw [init_eq_queueing] at hrun
    obtain ⟨buf', rest', h1, _, _⟩ := queueing_run sink st0 ts [] L (by simp) hrun
    subst h1
    exact queueing_full_blocked sink st0 _ _ hfull t
  · have hst := Step_of_step sink hs
    cases hst with
    | spawn c st wg ws rest1 calls h => simp [Aggregator.AddLog] at hm
    | send buf cap st wg ws entry1 rest1 calls h =>
      simp only [Aggregator.AddLog, List.singleton_append, List.cons.injEq,
        Instr.send.injEq] at hm
      rw [hm.1]
      exact ⟨h, rfl⟩
    | close buf cap st wg ws rest1 calls => simp [Aggregator.AddLog] at hm
    | wait c st ws rest1 calls => simp [Aggregator.AddLog] at hm
  · have hst := Step_of_step sink hs
    cases hst with
    | spawn c st wg ws rest1 calls h => simp at hlt
    | send buf cap st wg ws entry1 rest1 calls h => simp at hlt
    | close buf cap st wg ws rest1 calls => simp at hlt
    | wait c st ws rest1 calls => simp at hlt
    | recv entry buf cap closed st wg pre post main calls =>
      exact ⟨pre.length, entry, rfl, getElem?_append_cons_length _ _ _,
        getElem?_append_cons_length _ _ _, rfl⟩
    | store entry c st wg pre post main calls => simp at hlt
    | exit cap st wg pre post main calls h => simp at hlt

/-! ## Calling `Start` twice -/

theorem late_main_split {σ : Type} {late : List LogEntry} {s : World σ} (hsh : Shape late s) :
    ∃ m, s.main = m ++ late.flatMap Aggregator.AddLog := by
  rcases hsh with ⟨k, P, h1, _⟩ | ⟨h1, _⟩ | ⟨h1, _⟩
  · exact ⟨List.replicate k Instr.spawn ++ (P.flatMap Aggregator.AddLog ++ Aggregator.Stop),
      by rw [h1]; simp [ahead]⟩
  · exact ⟨[Instr.wait], by rw [h1]; simp⟩
  · exact ⟨[], by rw [h1]; simp⟩

/-- C3 (late submission is rejected): in every world, an `AddLog` on a closed
queue panics with "send on closed channel" and an `AddLog` on an open queue
does not panic; no step reopens a closed queue.  For a session followed by
late `AddLog` calls, in every reachable world the late calls are all still to
be made, the records that are stored, held by a worker or queued are among the
records `L` submitted before `Stop`, and the sink has seen exactly the
`StoreLog` calls; and once `Stop` has returned the late `AddLog` panics and no
goroutine can take a step. -/
theorem late_submission_rejected {σ : Type} (sink : LogStorage σ) (st0 : σ) (workers : Int)
    (L : List LogEntry) (r : LogEntry) (late : List LogEntry) :
    (∀ (s : World σ) rest, s.main = Aggregator.AddLog r ++ rest →
      s.agg.logChan.closed = true →
        s.step sink Tid.main = Outcome.panic "send on closed channel") ∧
    (∀ (s : World σ) rest msg, s.main = Aggregator.AddLog r ++ rest →
      s.agg.logChan.closed = false → s.step sink Tid.main ≠ Outcome.panic msg) ∧
    (∀ (s s' : World σ) t, s.step sink t = Outcome.ok s' → s.agg.logChan.closed = true →
      s'.agg.logChan.closed = true) ∧
    ∀ ts s, World.run sink
        (World.init st0 (session workers L ++ (r :: late).flatMap Aggregator.AddLog)) ts
        = Outcome.ok s →
      (∃ m, s.main = m ++ (r :: late).flatMap Aggregator.AddLog) ∧
      (s.calls ++ held s.workers ++ s.agg.logChan.buf).Subperm L ∧
      s.agg.storage = sinkAfter sink st0 s.calls ∧
      (s.main = (r :: late).flatMap Aggregator.AddLog →
        s.step sink Tid.main = Outcome.panic "send on closed channel" ∧
        ∀ t s', s.step sink t ≠ Outcome.ok s') := by
  have hclosed : ∀ (s : World σ) rest, s.main = Aggregator.AddLog r ++ rest →
      s.agg.logChan.closed = true →
        s.step sink Tid.main = Outcome.panic "send on closed channel" := by
    intro s rest hm hc
    simp [World.step, hm, Aggregator.AddLog, Instr.exec, Chan.send, hc]
  refine ⟨hclosed, fun s rest msg hm hc h => ?_, fun s s' t hs hc => ?_, fun ts s hrun => ?_⟩
  · obtain ⟨⟨⟨buf, cap, closed⟩, st, wg⟩, ws, main, calls⟩ := s
    simp only at hm hc
    subst hm hc
    by_cases hl : buf.length < cap
    · simp [World.step, Aggregator.AddLog, Instr.exec, Chan.send, hl] at h
    · simp [World.step, Aggregator.AddLog, Instr.exec, Chan.send, hl] at h
  · have hst := Step_of_step sink hs
    cases hst <;> first | exact hc | rfl
  · have hinv := inv_reach hrun
    have hsh := shape_run ts (inv_init sink st0 _) (shape_init st0 workers L (r :: late)) hrun
    obtain ⟨m, hm⟩ := late_main_split hsh
    refine ⟨⟨m, hm⟩, ?_, hinv.storage, fun hret => ?_⟩
    · have htok := hinv.tokens
      rw [hm, sends_append, sends_flatMap, session_eq_ahead, sends_ahead, bag_append,
        bag_append, ← add_assoc] at htok
      have h2 := add_right_cancel htok
      have h3 : bag (s.calls ++ held s.workers ++ s.agg.logChan.buf) ≤ bag L := by
        rw [← h2, bag_append, bag_append]
        exact Multiset.le_add_right _ _
      exact Multiset.coe_le.mp h3
    · obtain ⟨hc, hw⟩ := shape_returned hsh hret
      refine ⟨hclosed s (late.flatMap Aggregator.AddLog) (by simpa using hret) hc, ?_⟩
      intro t s' hs
      exact frozen hinv hret hc hw (Step_of_step sink hs)

/-- Witness of C3: one worker stores `recA`, `Stop` returns, and the late
`AddLog(recB)` panics, leaving `GetLogs` at `[recA]`. -/
theorem late_submission_rejected_witness :
    ∃ s, World.run memorySink (World.init NewMemoryStorage
        (session 1 [recA] ++ [recB].flatMap Aggregator.AddLog)) lateSchedule = Outcome.ok s ∧
      s.main = Aggregator.AddLog recB ∧ (s.agg.storage.GetLogs).1 = [recA] ∧
      s.step memorySink Tid.main = Outcome.panic "send on closed channel" ∧
      World.run memorySink (World.init NewMemoryStorage
        (session 1 [recA] ++ [recB].flatMap Aggregator.AddLog)) (lateSchedule ++ [Tid.main])
        = Outcome.panic "send on closed channel" :=
  ⟨_, rfl, rfl, rfl,
    ((late_submission_rejected memorySink NewMemoryStorage 1 [recA] recB []).2.2.2
      lateSchedule _ rfl).2.2.2 rfl |>.1, rfl⟩

end LogAggregator
